import Mathlib

/-!
Verification development for the color-generator repository.

The repository contains two self-contained TypeScript programs, here called
Variant A (volume-based subdivision) and Variant B (longest-edge subdivision).
Both partition the RGB unit cube into tetrahedra and repeatedly split one of
them, emitting the newly introduced point as the next color of an infinite
series.

Embedding notes.
The source manipulates heap objects and compares them with JavaScript `==`,
which for objects is reference equality.  The shallow embedding makes the heap
explicit: every `Color` carries an allocation identifier `ref`; freshly
allocated colors receive a fresh identifier, threaded through the definitions
as an explicit argument, and JavaScript reference equality on colors is the
function `refEq` comparing identifiers.  Components are exact rationals (the
source's numeric literals 0.45, 0.5, 0.55 are all exactly representable).
Fallible operations (`findMax` on an empty array, the never-written shared
point box of Variant B's `splitEdge`) are modelled with `Option`.
-/

/-- A color: an allocation identifier `ref` modelling JavaScript object
identity, and the three components `r`, `g`, `b` of the source interface. -/
structure Color where
  ref : ℕ
  r : ℚ
  g : ℚ
  b : ℚ
deriving DecidableEq

/-- JavaScript `==` between two `Color` objects: reference equality, modelled
as equality of allocation identifiers. -/
def refEq (x y : Color) : Bool :=
  x.ref == y.ref

/-- A tetrahedron: four corner colors in the role slots `a`, `b`, `c`, `d`. -/
structure Tetrahedron where
  a : Color
  b : Color
  c : Color
  d : Color
deriving DecidableEq

/-- The four corner role names of a tetrahedron. -/
inductive CornerName where
  | a
  | b
  | c
  | d
deriving DecidableEq

/-- Source `nameOfCorner` (identical in both variants): scan the role slots in
order `a`, `b`, `c`, `d` and return the first whose corner is `==` (reference
equal) to `point`; `none` models the source's `undefined`. -/
def nameOfCorner (tetrahedron : Tetrahedron) (point : Color) : Option CornerName :=
  if refEq tetrahedron.a point then some CornerName.a
  else if refEq tetrahedron.b point then some CornerName.b
  else if refEq tetrahedron.c point then some CornerName.c
  else if refEq tetrahedron.d point then some CornerName.d
  else none

/-- The source's assignment `t[name] = point` where `name` came from
`nameOfCorner`.  When `name` is `undefined` the JavaScript assignment
`t[undefined] = point` creates an unrelated property and leaves all four
corner slots unchanged, so the `none` case returns the tetrahedron as is. -/
def setCorner (tetrahedron : Tetrahedron) (name : Option CornerName) (point : Color) :
    Tetrahedron :=
  match name with
  | some CornerName.a => ⟨point, tetrahedron.b, tetrahedron.c, tetrahedron.d⟩
  | some CornerName.b => ⟨tetrahedron.a, point, tetrahedron.c, tetrahedron.d⟩
  | some CornerName.c => ⟨tetrahedron.a, tetrahedron.b, point, tetrahedron.d⟩
  | some CornerName.d => ⟨tetrahedron.a, tetrahedron.b, tetrahedron.c, point⟩
  | none => tetrahedron

/-- Source `findMax` (identical in both variants): start with `array[0]` and
scan the whole array, replacing the running maximum only when the comparator
says strictly greater; `none` models the `undefined` result on an empty
array. -/
def findMax {α : Type} (array : List α) (comparator : α → α → Bool) : Option α :=
  match array with
  | [] => none
  | x :: _ =>
    some (List.foldl (fun max current => if comparator current max then current else max) x array)

/-- JavaScript `array.splice(i, 1, ...replacement)` at an in-range index `i`:
delete the element at `i` and insert `replacement` in its place. -/
def splice {α : Type} (l : List α) (i : ℕ) (replacement : List α) : List α :=
  l.take i ++ replacement ++ l.drop (i + 1)

/-- The color components all lie in the closed unit interval. -/
def inUnit (c : Color) : Prop :=
  0 ≤ c.r ∧ c.r ≤ 1 ∧ 0 ≤ c.g ∧ c.g ≤ 1 ∧ 0 ≤ c.b ∧ c.b ≤ 1

instance (c : Color) : Decidable (inUnit c) := by
  unfold inUnit; infer_instance

namespace VariantA

/-- Source Variant A `interpolate(a, b, factor)`; the fresh allocation
identifier of the resulting object is the explicit `newRef` argument. -/
def interpolate (newRef : ℕ) (a b : Color) (factor : ℚ) : Color :=
  let factor2 := 1 - factor
  ⟨newRef,
   a.r * factor + b.r * factor2,
   a.g * factor + b.g * factor2,
   a.b * factor + b.b * factor2⟩

/-- Source Variant A `centerPoint`: interpolate `a`/`b` at 0.5, `c`/`d` at 0.5,
then the two midpoints at 0.5.  The two intermediate objects are never stored
or compared, so they share the model allocation identifier of the result. -/
def centerPoint (newRef : ℕ) (tetrahedron : Tetrahedron) : Color :=
  let center : ℚ := 0.5
  let a := interpolate newRef tetrahedron.a tetrahedron.b center
  let b := interpolate newRef tetrahedron.c tetrahedron.d center
  interpolate newRef a b center

/-- Source Variant A `splitTetrahedron`: four copies of the parent, each with
the slot found by `nameOfCorner` for one of the parent's own corners replaced
by the new center point. -/
def splitTetrahedron (newRef : ℕ) (tetrahedron : Tetrahedron) :
    List Tetrahedron × Color :=
  let newPoint := centerPoint newRef tetrahedron
  let a := setCorner tetrahedron (nameOfCorner tetrahedron tetrahedron.a) newPoint
  let b := setCorner tetrahedron (nameOfCorner tetrahedron tetrahedron.b) newPoint
  let c := setCorner tetrahedron (nameOfCorner tetrahedron tetrahedron.c) newPoint
  let d := setCorner tetrahedron (nameOfCorner tetrahedron tetrahedron.d) newPoint
  ([a, b, c, d], newPoint)

/-- Source `subColor`. -/
def subColor (a b : Color) : Color :=
  ⟨0, a.r - b.r, a.g - b.g, a.b - b.b⟩

/-- Source `colorDot`. -/
def colorDot (a b : Color) : ℚ :=
  a.r * b.r + a.g * b.g + a.b * b.b

/-- Source `colorCross`. -/
def colorCross (a b : Color) : Color :=
  ⟨0, a.g * b.b - a.b * b.g, a.b * b.r - a.r * b.b, a.r * b.g - a.g * b.r⟩

/-- Source `tetrahedronVolume`: absolute scalar triple product of the three
edge vectors from corner `d`, divided by 6. -/
def tetrahedronVolume (tetrahedron : Tetrahedron) : ℚ :=
  let A := subColor tetrahedron.a tetrahedron.d
  let B := subColor tetrahedron.b tetrahedron.d
  let C := subColor tetrahedron.c tetrahedron.d
  |colorDot A (colorCross B C)| / 6

/-- Source Variant A `addPoint`: select the tetrahedron of maximal volume,
split it, and splice its four children into its position (found with
`indexOf`, i.e. first occurrence). -/
def addPoint (newRef : ℕ) (tetrahedrons : List Tetrahedron) :
    Option (List Tetrahedron × Color) :=
  match findMax tetrahedrons
      (fun a b => decide (tetrahedronVolume a > tetrahedronVolume b)) with
  | none => none
  | some largestTetrahedron =>
    let result := splitTetrahedron newRef largestTetrahedron
    some (splice tetrahedrons (tetrahedrons.indexOf largestTetrahedron) result.1, result.2)

/-- Seed color `white` of Variant A. -/
def white : Color := ⟨0, 1, 1, 1⟩

/-- Seed color `gray` of Variant A, offset from the center per the source. -/
def gray : Color := ⟨1, 0.45, 0.55, 0.5⟩

/-- Seed color `black` of Variant A. -/
def black : Color := ⟨2, 0, 0, 0⟩

/-- Seed color `red` of Variant A. -/
def red : Color := ⟨3, 1, 0, 0⟩

/-- Seed color `magenta` of Variant A. -/
def magenta : Color := ⟨4, 1, 0, 1⟩

/-- Seed color `blue` of Variant A. -/
def blue : Color := ⟨5, 0, 0, 1⟩

/-- Seed color `cyan` of Variant A. -/
def cyan : Color := ⟨6, 0, 1, 1⟩

/-- Seed color `green` of Variant A. -/
def green : Color := ⟨7, 0, 1, 0⟩

/-- Seed color `yellow` of Variant A. -/
def yellow : Color := ⟨8, 1, 1, 0⟩

/-- The fixed 12-tetrahedron seed partition of Variant A's
`makeColorSeries`. -/
def seedTetrahedrons : List Tetrahedron :=
  [⟨white, gray, red, magenta⟩,
   ⟨white, gray, magenta, blue⟩,
   ⟨white, gray, blue, cyan⟩,
   ⟨white, gray, cyan, green⟩,
   ⟨white, gray, green, yellow⟩,
   ⟨white, gray, yellow, red⟩,
   ⟨black, gray, red, magenta⟩,
   ⟨black, gray, magenta, blue⟩,
   ⟨black, gray, blue, cyan⟩,
   ⟨black, gray, cyan, green⟩,
   ⟨black, gray, green, yellow⟩,
   ⟨black, gray, yellow, red⟩]

/-- Generator state of Variant A's `makeColorSeries`: the current partition
plus the next fresh allocation identifier of the model heap. -/
structure State where
  tetrahedrons : List Tetrahedron
  nextRef : ℕ
deriving DecidableEq

/-- The state of `makeColorSeries` before the first pull: the seed partition;
identifiers 0 to 8 are taken by the seed colors. -/
def seedState : State := ⟨seedTetrahedrons, 9⟩

/-- One pull of Variant A's generator loop: run `addPoint`, keep the new
partition, and emit the new point.  The `none` branch models the crash on an
empty partition, which is proved unreachable. -/
def step (s : State) : State × Option Color :=
  match addPoint s.nextRef s.tetrahedrons with
  | some result => (⟨result.1, s.nextRef + 1⟩, some result.2)
  | none => (s, none)

/-- The generator state of Variant A before pull `n`. -/
def states : ℕ → State
  | 0 => seedState
  | n + 1 => (step (states n)).1

/-- The color emitted by pull `n` of Variant A's `makeColorSeries`. -/
def series (n : ℕ) : Option Color :=
  (step (states n)).2

end VariantA

namespace VariantB

/-- An edge of Variant B: an ordered pair of endpoint colors (the pair is
unordered in meaning; equality is `edgesEqual`). -/
structure Edge where
  a : Color
  b : Color
deriving DecidableEq

/-- Source `edgesInTetrahedron`: the six corner pairs in the fixed enumeration
order (a,b), (a,c), (a,d), (b,c), (b,d), (c,d). -/
def edgesInTetrahedron (tetrahedron : Tetrahedron) : List Edge :=
  [⟨tetrahedron.a, tetrahedron.b⟩,
   ⟨tetrahedron.a, tetrahedron.c⟩,
   ⟨tetrahedron.a, tetrahedron.d⟩,
   ⟨tetrahedron.b, tetrahedron.c⟩,
   ⟨tetrahedron.b, tetrahedron.d⟩,
   ⟨tetrahedron.c, tetrahedron.d⟩]

/-- Source `edgeLengthSquared`. -/
def edgeLengthSquared (edge : Edge) : ℚ :=
  let r := edge.a.r - edge.b.r
  let g := edge.a.g - edge.b.g
  let b := edge.a.b - edge.b.b
  r * r + g * g + b * b

/-- Source Variant B `interpolate(edge, factor)`; the fresh allocation
identifier of the resulting object is the explicit `newRef` argument. -/
def interpolate (newRef : ℕ) (edge : Edge) (factor : ℚ) : Color :=
  let factor2 := 1 - factor
  ⟨newRef,
   edge.a.r * factor + edge.b.r * factor2,
   edge.a.g * factor + edge.b.g * factor2,
   edge.a.b * factor + edge.b.b * factor2⟩

/-- Source `offCenterPoint`: interpolate the edge at factor 0.55. -/
def offCenterPoint (newRef : ℕ) (edge : Edge) : Color :=
  interpolate newRef edge 0.55

/-- Source `edgesEqual`: JavaScript `==` on the endpoint objects, i.e.
reference equality, in either endpoint order. -/
def edgesEqual (a b : Edge) : Bool :=
  (refEq a.a b.a && refEq a.b b.b) || (refEq a.a b.b && refEq a.b b.a)

/-- Source `tetrahedronHasEdge`. -/
def tetrahedronHasEdge (tetrahedron : Tetrahedron) (edge : Edge) : Bool :=
  (edgesInTetrahedron tetrahedron).any (fun edgeInTetrahedron =>
    edgesEqual edgeInTetrahedron edge)

/-- Source Variant B `splitTetrahedron`: two copies of the tetrahedron, one
with the slot holding the edge's first endpoint replaced by the shared new
point and one with the slot holding the second endpoint replaced.  The
source's mutable box argument is modelled by computing the shared point once
in `splitEdge` and passing it in. -/
def splitTetrahedron (tetrahedron : Tetrahedron) (edge : Edge) (newPoint : Color) :
    List Tetrahedron :=
  let a := setCorner tetrahedron (nameOfCorner tetrahedron edge.a) newPoint
  let b := setCorner tetrahedron (nameOfCorner tetrahedron edge.b) newPoint
  [a, b]

/-- Source `splitEdge`: the unaffected tetrahedra followed by the two children
of every affected tetrahedron, in affected order.  The emitted point is
`none` when no tetrahedron is affected, modelling the source's never-filled
box (`newPoint.point!` would be `undefined`). -/
def splitEdge (newRef : ℕ) (edge : Edge) (tetrahedrons : List Tetrahedron) :
    List Tetrahedron × Option Color :=
  let affectedTetrahedrons := tetrahedrons.filter (fun tetrahedron =>
    tetrahedronHasEdge tetrahedron edge)
  let unAffectedTetrahedrons := tetrahedrons.filter (fun tetrahedron =>
    !tetrahedronHasEdge tetrahedron edge)
  let point := offCenterPoint newRef edge
  (unAffectedTetrahedrons ++
    (affectedTetrahedrons.map (fun affectedTetrahedron =>
      splitTetrahedron affectedTetrahedron edge point)).flatten,
   if affectedTetrahedrons.isEmpty then none else some point)

/-- Source Variant B `addPoint`: flatten all edges of all tetrahedra, select
the one of maximal squared length, and split it. -/
def addPoint (newRef : ℕ) (tetrahedrons : List Tetrahedron) :
    Option (List Tetrahedron × Option Color) :=
  let allEdges := (tetrahedrons.map edgesInTetrahedron).flatten
  match findMax allEdges
      (fun a b => decide (edgeLengthSquared a > edgeLengthSquared b)) with
  | none => none
  | some longestEdge => some (splitEdge newRef longestEdge tetrahedrons)

/-- Seed color `white` of Variant B. -/
def white : Color := ⟨0, 1, 1, 1⟩

/-- Seed color `gray` of Variant B: the exact center point, unperturbed. -/
def gray : Color := ⟨1, 0.5, 0.5, 0.5⟩

/-- Seed color `black` of Variant B. -/
def black : Color := ⟨2, 0, 0, 0⟩

/-- Seed color `red` of Variant B. -/
def red : Color := ⟨3, 1, 0, 0⟩

/-- Seed color `magenta` of Variant B. -/
def magenta : Color := ⟨4, 1, 0, 1⟩

/-- Seed color `blue` of Variant B. -/
def blue : Color := ⟨5, 0, 0, 1⟩

/-- Seed color `cyan` of Variant B. -/
def cyan : Color := ⟨6, 0, 1, 1⟩

/-- Seed color `green` of Variant B. -/
def green : Color := ⟨7, 0, 1, 0⟩

/-- Seed color `yellow` of Variant B. -/
def yellow : Color := ⟨8, 1, 1, 0⟩

/-- The fixed 12-tetrahedron seed partition of Variant B's
`makeColorSeries`. -/
def seedTetrahedrons : List Tetrahedron :=
  [⟨white, gray, red, magenta⟩,
   ⟨white, gray, magenta, blue⟩,
   ⟨white, gray, blue, cyan⟩,
   ⟨white, gray, cyan, green⟩,
   ⟨white, gray, green, yellow⟩,
   ⟨white, gray, yellow, red⟩,
   ⟨black, gray, red, magenta⟩,
   ⟨black, gray, magenta, blue⟩,
   ⟨black, gray, blue, cyan⟩,
   ⟨black, gray, cyan, green⟩,
   ⟨black, gray, green, yellow⟩,
   ⟨black, gray, yellow, red⟩]

/-- Generator state of Variant B's `makeColorSeries`: the current partition
plus the next fresh allocation identifier of the model heap. -/
structure State where
  tetrahedrons : List Tetrahedron
  nextRef : ℕ
deriving DecidableEq

/-- The state of Variant B's `makeColorSeries` when its loop is reached, after
the six initial yields; identifiers 0 to 8 are taken by the seed colors. -/
def seedState : State := ⟨seedTetrahedrons, 9⟩

/-- One pull of Variant B's generator loop: run `addPoint`, keep the new
partition, and emit the new point.  The outer `none` models the crash on an
empty partition; the emitted `Option` passes through `splitEdge`'s box
result.  Both `none` paths are proved unreachable. -/
def step (s : State) : State × Option Color :=
  match addPoint s.nextRef s.tetrahedrons with
  | some result => (⟨result.1, s.nextRef + 1⟩, result.2)
  | none => (s, none)

/-- The generator state of Variant B before pull `n + 6` (the loop is entered
after the six initial yields). -/
def states : ℕ → State
  | 0 => seedState
  | n + 1 => (step (states n)).1

/-- The six colors yielded by Variant B's `makeColorSeries` before its loop:
`yield red; yield magenta; yield blue; yield cyan; yield green;
yield yellow`. -/
def initialYields : List Color :=
  [red, magenta, blue, cyan, green, yellow]

/-- The color emitted by pull `n` of Variant B's `makeColorSeries`: the six
initial yields, then the loop outputs. -/
def series (n : ℕ) : Option Color :=
  if n < 6 then initialYields.get? n else (step (states (n - 6))).2

end VariantB

/-! ### Generic lemmas about the shared helpers -/

theorem refEq_self (x : Color) : refEq x x = true := by
  simp [refEq]

theorem refEq_eq_true_iff (x y : Color) : refEq x y = true ↔ x.ref = y.ref := by
  simp [refEq]

theorem refEq_eq_false_iff (x y : Color) : refEq x y = false ↔ x.ref ≠ y.ref := by
  simp [refEq]

/-- The scan of `findMax` keeps an element of the scanned list. -/
theorem foldl_findMax_mem {α : Type} (comparator : α → α → Bool) (l : List α) (x : α) :
    List.foldl (fun max current => if comparator current max then current else max) x l
      ∈ x :: l := by
  induction l generalizing x with
  | nil => simp
  | cons cur rest ih =>
    rw [List.foldl_cons]
    by_cases h : comparator cur x = true
    · rw [if_pos h]
      have := ih cur
      rcases List.mem_cons.mp this with h1 | h1
      · simp [h1]
      · simp [List.mem_cons.mpr (Or.inr (List.mem_cons.mpr (Or.inr h1)))]
    · rw [if_neg h]
      have := ih x
      rcases List.mem_cons.mp this with h1 | h1
      · simp [h1]
      · simp [List.mem_cons.mpr (Or.inr (List.mem_cons.mpr (Or.inr h1)))]

/-- `findMax` returns an element of its input array. -/
theorem findMax_mem {α : Type} (array : List α) (comparator : α → α → Bool) (y : α)
    (h : findMax array comparator = some y) : y ∈ array := by
  match array with
  | [] => simp [findMax] at h
  | x :: rest =>
    have hmem := foldl_findMax_mem comparator (x :: rest) x
    rcases List.mem_cons.mp hmem with h1 | h1
    · simp only [findMax, Option.some.injEq] at h
      rw [← h]; rw [h1]; exact List.mem_cons_self x rest
    · simp only [findMax, Option.some.injEq] at h
      rw [← h]; exact h1

/-- The scan of `findMax` with a strict comparator derived from a measure `f`
lands on the first element attaining the maximal measure: the result attains
the maximum and everything strictly before it has strictly smaller measure. -/
theorem foldl_findMax_first {α : Type} (f : α → ℚ) (cmp : α → α → Bool)
    (hc : ∀ a b, cmp a b = true ↔ f a > f b) (l : List α) (x : α) :
    ∃ pre y post,
      x :: l = pre ++ y :: post ∧
      List.foldl (fun max current => if cmp current max then current else max) x l = y ∧
      (∀ z ∈ x :: l, f z ≤ f y) ∧
      (∀ z ∈ pre, f z < f y) := by
  induction l generalizing x with
  | nil =>
    refine ⟨[], x, [], by simp, rfl, ?_, by simp⟩
    intro z hz
    rcases List.mem_cons.mp hz with h1 | h1
    · rw [h1]
    · simp at h1
  | cons cur rest ih =>
    rw [List.foldl_cons]
    by_cases h : f cur > f x
    · rw [if_pos ((hc cur x).mpr h)]
      obtain ⟨pre, y, post, hdec, hfold, hmax, hstrict⟩ := ih cur
      have hcury : f cur ≤ f y := hmax cur (List.mem_cons_self cur rest)
      refine ⟨x :: pre, y, post, ?_, hfold, ?_, ?_⟩
      · rw [List.cons_append, ← hdec]
      · intro z hz
        rcases List.mem_cons.mp hz with h1 | h1
        · rw [h1]; exact le_of_lt (lt_of_lt_of_le h hcury)
        · exact hmax z h1
      · intro z hz
        rcases List.mem_cons.mp hz with h1 | h1
        · rw [h1]; exact lt_of_lt_of_le h hcury
        · exact hstrict z h1
    · have hcmp : ¬ (cmp cur x = true) := fun hh => h ((hc cur x).mp hh)
      rw [if_neg hcmp]
      obtain ⟨pre, y, post, hdec, hfold, hmax, hstrict⟩ := ih x
      have hcx : f cur ≤ f x := not_lt.mp h
      cases pre with
      | nil =>
        simp only [List.nil_append] at hdec
        have hxy : x = y := (List.cons.injEq _ _ _ _ ▸ hdec).1
        have hpost : rest = post := (List.cons.injEq _ _ _ _ ▸ hdec).2
        refine ⟨[], y, cur :: post, by rw [List.nil_append, ← hxy, hpost], hfold, ?_, by simp⟩
        intro z hz
        rcases List.mem_cons.mp hz with h1 | h1
        · rw [h1]; exact hmax x (List.mem_cons_self x rest)
        · rcases List.mem_cons.mp h1 with h2 | h2
          · rw [h2, ← hxy]; exact hcx
          · exact hmax z (List.mem_cons.mpr (Or.inr h2))
      | cons p ps =>
        rw [List.cons_append] at hdec
        have hpx : x = p := (List.cons.injEq _ _ _ _ ▸ hdec).1
        have hrest : rest = ps ++ y :: post := (List.cons.injEq _ _ _ _ ▸ hdec).2
        have hxlt : f x < f y := by
          rw [hpx]; exact hstrict p (List.mem_cons_self p ps)
        refine ⟨x :: cur :: ps, y, post, ?_, hfold, ?_, ?_⟩
        · rw [List.cons_append, List.cons_append, hrest]
        · intro z hz
          rcases List.mem_cons.mp hz with h1 | h1
          · rw [h1]; exact le_of_lt hxlt
          · rcases List.mem_cons.mp h1 with h2 | h2
            · rw [h2]; exact le_of_lt (lt_of_le_of_lt hcx hxlt)
            · exact hmax z (List.mem_cons.mpr (Or.inr (hrest ▸ h2)))
        · intro z hz
          rcases List.mem_cons.mp hz with h1 | h1
          · rw [h1]; exact hxlt
          · rcases List.mem_cons.mp h1 with h2 | h2
            · rw [h2]; exact lt_of_le_of_lt hcx hxlt
            · exact hstrict z (List.mem_cons.mpr (Or.inr h2))

/-- `findMax` over a nonempty array with the strict comparator of a measure
`f` returns the first element attaining the maximal measure. -/
theorem findMax_first {α : Type} (f : α → ℚ) (cmp : α → α → Bool)
    (hc : ∀ a b, cmp a b = true ↔ f a > f b) (array : List α) (h : array ≠ []) :
    ∃ pre y post,
      array = pre ++ y :: post ∧
      findMax array cmp = some y ∧
      (∀ z ∈ array, f z ≤ f y) ∧
      (∀ z ∈ pre, f z < f y) := by
  match array with
  | [] => exact absurd rfl h
  | x :: rest =>
    obtain ⟨pre, y, post, hdec, hfold, hmax, hstrict⟩ := foldl_findMax_first f cmp hc rest x
    refine ⟨pre, y, post, hdec, ?_, hmax, hstrict⟩
    simp only [findMax, Option.some.injEq, List.foldl_cons]
    rw [show (if cmp x x then x else x) = x from by rcases hb : cmp x x <;> simp [hb]]
    exact hfold

/-- Splicing a replacement at the `indexOf` position of an element sitting
after a prefix not containing it replaces exactly that element. -/
theorem splice_at_indexOf {α : Type} [DecidableEq α] (pre : List α) (parent : α)
    (post repl : List α) (h : parent ∉ pre) :
    splice (pre ++ parent :: post) ((pre ++ parent :: post).indexOf parent) repl =
      pre ++ repl ++ post := by
  induction pre with
  | nil =>
    simp only [List.nil_append]
    rw [List.indexOf_cons_self]
    simp [splice]
  | cons x xs ih =>
    have hne : x ≠ parent := fun e => h (e ▸ List.mem_cons_self x xs)
    have hnm : parent ∉ xs := fun e => h (List.mem_cons.mpr (Or.inr e))
    rw [List.cons_append, List.indexOf_cons_ne _ hne]
    have := ih hnm
    simp only [splice] at this ⊢
    rw [Nat.succ_eq_add_one]
    simp only [List.take_succ_cons, List.drop_succ_cons]
    rw [List.cons_append, List.cons_append]
    rw [this]
    simp

/-- Membership in a splice comes from the replacement or the original list. -/
theorem mem_of_mem_splice {α : Type} (l : List α) (i : ℕ) (repl : List α) (x : α)
    (h : x ∈ splice l i repl) : x ∈ repl ∨ x ∈ l := by
  simp only [splice, List.mem_append] at h
  rcases h with (h1 | h1) | h1
  · exact Or.inr (List.take_subset i l h1)
  · exact Or.inl h1
  · exact Or.inr (List.drop_subset (i + 1) l h1)

/-- A convex combination with factor in `[0, 1]` of two values in `[0, 1]`
stays in `[0, 1]`. -/
theorem convex_unit {x y t : ℚ} (hx0 : 0 ≤ x) (hx1 : x ≤ 1) (hy0 : 0 ≤ y) (hy1 : y ≤ 1)
    (ht0 : 0 ≤ t) (ht1 : t ≤ 1) :
    0 ≤ x * t + y * (1 - t) ∧ x * t + y * (1 - t) ≤ 1 := by
  constructor <;> nlinarith

/-! ### Corner lookup lemmas -/

/-- All four corners of a tetrahedron have allocation identifiers below `n`. -/
def cornersBelow (t : Tetrahedron) (n : ℕ) : Prop :=
  t.a.ref < n ∧ t.b.ref < n ∧ t.c.ref < n ∧ t.d.ref < n

instance (t : Tetrahedron) (n : ℕ) : Decidable (cornersBelow t n) := by
  unfold cornersBelow; infer_instance

/-- The four corners of a tetrahedron are pairwise distinct objects. -/
def distinctCorners (t : Tetrahedron) : Prop :=
  t.a.ref ≠ t.b.ref ∧ t.a.ref ≠ t.c.ref ∧ t.a.ref ≠ t.d.ref ∧
  t.b.ref ≠ t.c.ref ∧ t.b.ref ≠ t.d.ref ∧ t.c.ref ≠ t.d.ref

instance (t : Tetrahedron) : Decidable (distinctCorners t) := by
  unfold distinctCorners; infer_instance

/-- All four corners of a tetrahedron have components in the unit cube. -/
def cornersInUnit (t : Tetrahedron) : Prop :=
  inUnit t.a ∧ inUnit t.b ∧ inUnit t.c ∧ inUnit t.d

instance (t : Tetrahedron) : Decidable (cornersInUnit t) := by
  unfold cornersInUnit; infer_instance

/-- When the point is reference-equal to some corner, the corner lookup
succeeds. -/
theorem nameOfCorner_isSome (t : Tetrahedron) (p : Color)
    (h : refEq t.a p = true ∨ refEq t.b p = true ∨ refEq t.c p = true ∨ refEq t.d p = true) :
    (nameOfCorner t p).isSome = true := by
  unfold nameOfCorner
  split_ifs with h1 h2 h3 h4 <;> simp_all

/-- Looking up a tetrahedron's own `a` corner always succeeds with role `a`. -/
theorem nameOfCorner_self_a (t : Tetrahedron) :
    nameOfCorner t t.a = some CornerName.a := by
  simp [nameOfCorner, refEq_self]

/-- With pairwise distinct corners, looking up the `b` corner yields role
`b`. -/
theorem nameOfCorner_self_b (t : Tetrahedron) (h : distinctCorners t) :
    nameOfCorner t t.b = some CornerName.b := by
  obtain ⟨h1, _, _, _, _, _⟩ := h
  simp [nameOfCorner, refEq_self, refEq, h1]

/-- With pairwise distinct corners, looking up the `c` corner yields role
`c`. -/
theorem nameOfCorner_self_c (t : Tetrahedron) (h : distinctCorners t) :
    nameOfCorner t t.c = some CornerName.c := by
  obtain ⟨_, h2, _, h4, _, _⟩ := h
  simp [nameOfCorner, refEq_self, refEq, h2, h4]

/-- With pairwise distinct corners, looking up the `d` corner yields role
`d`. -/
theorem nameOfCorner_self_d (t : Tetrahedron) (h : distinctCorners t) :
    nameOfCorner t t.d = some CornerName.d := by
  obtain ⟨_, _, h3, _, h5, h6⟩ := h
  simp [nameOfCorner, refEq_self, refEq, h3, h5, h6]

/-- After a successful lookup, the replaced slot of `setCorner` holds the new
point (reference-equal to it). -/
theorem setCorner_references (t : Tetrahedron) (name : CornerName) (p : Color) :
    (refEq (setCorner t (some name) p).a p || refEq (setCorner t (some name) p).b p ||
     refEq (setCorner t (some name) p).c p || refEq (setCorner t (some name) p).d p) = true := by
  cases name <;> simp [setCorner, refEq_self]

/-- `setCorner` keeps every corner identifier below `n` when both the original
corners and the new point are below `n`. -/
theorem setCorner_cornersBelow (t : Tetrahedron) (name : Option CornerName) (p : Color)
    (n : ℕ) (ht : cornersBelow t n) (hp : p.ref < n) :
    cornersBelow (setCorner t name p) n := by
  obtain ⟨h1, h2, h3, h4⟩ := ht
  rcases name with _ | name
  · exact ⟨h1, h2, h3, h4⟩
  · cases name <;> exact ⟨by assumption, by assumption, by assumption, by assumption⟩

/-- `setCorner` keeps every corner in the unit cube when both the original
corners and the new point are in it. -/
theorem setCorner_cornersInUnit (t : Tetrahedron) (name : Option CornerName) (p : Color)
    (ht : cornersInUnit t) (hp : inUnit p) :
    cornersInUnit (setCorner t name p) := by
  obtain ⟨h1, h2, h3, h4⟩ := ht
  rcases name with _ | name
  · exact ⟨h1, h2, h3, h4⟩
  · cases name <;> exact ⟨by assumption, by assumption, by assumption, by assumption⟩

/-! ### Variant A: structural analysis of one generator step -/

namespace VariantA

/-- The generator invariant of Variant A: the partition is nonempty, every
corner was allocated before `nextRef`, and every tetrahedron has four pairwise
distinct corner objects. -/
def Inv (s : State) : Prop :=
  s.tetrahedrons ≠ [] ∧
  ∀ t ∈ s.tetrahedrons, cornersBelow t s.nextRef ∧ distinctCorners t

theorem centerPoint_ref (newRef : ℕ) (t : Tetrahedron) :
    (centerPoint newRef t).ref = newRef := rfl

/-- With pairwise distinct corners, Variant A's split yields exactly the four
one-corner replacements, in role order. -/
theorem splitTetrahedron_eq (newRef : ℕ) (t : Tetrahedron) (h : distinctCorners t) :
    splitTetrahedron newRef t =
      ([⟨centerPoint newRef t, t.b, t.c, t.d⟩,
        ⟨t.a, centerPoint newRef t, t.c, t.d⟩,
        ⟨t.a, t.b, centerPoint newRef t, t.d⟩,
        ⟨t.a, t.b, t.c, centerPoint newRef t⟩], centerPoint newRef t) := by
  unfold splitTetrahedron
  rw [nameOfCorner_self_a, nameOfCorner_self_b t h, nameOfCorner_self_c t h,
    nameOfCorner_self_d t h]
  rfl

/-- Full analysis of one Variant A generator step under the invariant: the
partition decomposes around a parent of maximal volume sitting after strictly
smaller tetrahedra, the step replaces exactly that parent, in place, by its
four children in role order, and emits the parent's center point. -/
theorem step_spec (s : State) (h : Inv s) :
    ∃ pre parent post,
      s.tetrahedrons = pre ++ parent :: post ∧
      parent ∉ pre ∧
      (∀ t ∈ s.tetrahedrons, tetrahedronVolume t ≤ tetrahedronVolume parent) ∧
      (∀ t ∈ pre, tetrahedronVolume t < tetrahedronVolume parent) ∧
      distinctCorners parent ∧
      cornersBelow parent s.nextRef ∧
      (step s).1.tetrahedrons =
        pre ++ [⟨centerPoint s.nextRef parent, parent.b, parent.c, parent.d⟩,
                ⟨parent.a, centerPoint s.nextRef parent, parent.c, parent.d⟩,
                ⟨parent.a, parent.b, centerPoint s.nextRef parent, parent.d⟩,
                ⟨parent.a, parent.b, parent.c, centerPoint s.nextRef parent⟩] ++ post ∧
      (step s).1.nextRef = s.nextRef + 1 ∧
      (step s).2 = some (centerPoint s.nextRef parent) := by
  obtain ⟨hne, hall⟩ := h
  obtain ⟨pre, parent, post, hdec, hfind, hmax, hstrict⟩ :=
    findMax_first tetrahedronVolume
      (fun a b => decide (tetrahedronVolume a > tetrahedronVolume b))
      (fun a b => by simp) s.tetrahedrons hne
  have hmem : parent ∈ s.tetrahedrons := by
    rw [hdec]; exact List.mem_append.mpr (Or.inr (List.mem_cons_self parent post))
  have hnotpre : parent ∉ pre := by
    intro hp
    exact absurd (hstrict parent hp) (lt_irrefl _)
  obtain ⟨hbelow, hdist⟩ := hall parent hmem
  have hsplit := splitTetrahedron_eq s.nextRef parent hdist
  have hstep : step s =
      (⟨splice s.tetrahedrons (s.tetrahedrons.indexOf parent)
          [⟨centerPoint s.nextRef parent, parent.b, parent.c, parent.d⟩,
           ⟨parent.a, centerPoint s.nextRef parent, parent.c, parent.d⟩,
           ⟨parent.a, parent.b, centerPoint s.nextRef parent, parent.d⟩,
           ⟨parent.a, parent.b, parent.c, centerPoint s.nextRef parent⟩],
        s.nextRef + 1⟩, some (centerPoint s.nextRef parent)) := by
    simp only [step, addPoint, hfind, hsplit]
  have hsplice :
      splice s.tetrahedrons (s.tetrahedrons.indexOf parent)
          [⟨centerPoint s.nextRef parent, parent.b, parent.c, parent.d⟩,
           ⟨parent.a, centerPoint s.nextRef parent, parent.c, parent.d⟩,
           ⟨parent.a, parent.b, centerPoint s.nextRef parent, parent.d⟩,
           ⟨parent.a, parent.b, parent.c, centerPoint s.nextRef parent⟩] =
        pre ++ [⟨centerPoint s.nextRef parent, parent.b, parent.c, parent.d⟩,
                ⟨parent.a, centerPoint s.nextRef parent, parent.c, parent.d⟩,
                ⟨parent.a, parent.b, centerPoint s.nextRef parent, parent.d⟩,
                ⟨parent.a, parent.b, parent.c, centerPoint s.nextRef parent⟩] ++ post := by
    rw [hdec]
    exact splice_at_indexOf pre parent post _ hnotpre
  refine ⟨pre, parent, post, hdec, hnotpre, hmax, hstrict, hdist, hbelow, ?_, ?_, ?_⟩
  · rw [hstep, hsplice]
  · rw [hstep]
  · rw [hstep]

/-- One Variant A step preserves the generator invariant. -/
theorem Inv_step (s : State) (h : Inv s) : Inv ((step s).1) := by
  obtain ⟨pre, parent, post, hdec, _, _, _, hdist, hbelow, hnew, href, _⟩ := step_spec s h
  obtain ⟨hb1, hb2, hb3, hb4⟩ := hbelow
  obtain ⟨hd1, hd2, hd3, hd4, hd5, hd6⟩ := hdist
  constructor
  · rw [hnew]
    intro habs
    simpa using congrArg List.length habs
  · intro t ht
    rw [hnew] at ht
    rw [href]
    have hold : ∀ u ∈ s.tetrahedrons, cornersBelow u (s.nextRef + 1) ∧ distinctCorners u := by
      intro u hu
      obtain ⟨⟨u1, u2, u3, u4⟩, ud⟩ := h.2 u hu
      exact ⟨⟨Nat.lt_succ_of_lt u1, Nat.lt_succ_of_lt u2, Nat.lt_succ_of_lt u3,
        Nat.lt_succ_of_lt u4⟩, ud⟩
    rcases List.mem_append.mp ht with hl | hpost
    · rcases List.mem_append.mp hl with hpre | hmid
      · exact hold t (hdec ▸ List.mem_append.mpr (Or.inl hpre))
      · have hpr : (centerPoint s.nextRef parent).ref = s.nextRef := rfl
        have hfreshA : s.nextRef ≠ parent.a.ref := (Nat.ne_of_lt hb1).symm
        have hfreshB : s.nextRef ≠ parent.b.ref := (Nat.ne_of_lt hb2).symm
        have hfreshC : s.nextRef ≠ parent.c.ref := (Nat.ne_of_lt hb3).symm
        have hfreshD : s.nextRef ≠ parent.d.ref := (Nat.ne_of_lt hb4).symm
        have hlt : s.nextRef < s.nextRef + 1 := Nat.lt_succ_self _
        simp only [List.mem_cons, List.not_mem_nil, or_false] at hmid
        rcases hmid with rfl | rfl | rfl | rfl
        · exact ⟨⟨hlt, Nat.lt_succ_of_lt hb2, Nat.lt_succ_of_lt hb3, Nat.lt_succ_of_lt hb4⟩,
            hfreshB, hfreshC, hfreshD, hd4, hd5, hd6⟩
        · exact ⟨⟨Nat.lt_succ_of_lt hb1, hlt, Nat.lt_succ_of_lt hb3, Nat.lt_succ_of_lt hb4⟩,
            (Ne.symm hfreshA : parent.a.ref ≠ s.nextRef), hd2, hd3,
            hfreshC, hfreshD, hd6⟩
        · exact ⟨⟨Nat.lt_succ_of_lt hb1, Nat.lt_succ_of_lt hb2, hlt, Nat.lt_succ_of_lt hb4⟩,
            hd1, (Ne.symm hfreshA : parent.a.ref ≠ s.nextRef), hd3,
            (Ne.symm hfreshB : parent.b.ref ≠ s.nextRef), hd5, hfreshD⟩
        · exact ⟨⟨Nat.lt_succ_of_lt hb1, Nat.lt_succ_of_lt hb2, Nat.lt_succ_of_lt hb3, hlt⟩,
            hd1, hd2, (Ne.symm hfreshA : parent.a.ref ≠ s.nextRef), hd4,
            (Ne.symm hfreshB : parent.b.ref ≠ s.nextRef),
            (Ne.symm hfreshC : parent.c.ref ≠ s.nextRef)⟩
    · exact hold t (hdec ▸ List.mem_append.mpr (Or.inr (List.mem_cons.mpr (Or.inr hpost))))

/-- The seed state of Variant A satisfies the generator invariant. -/
theorem Inv_seedState : Inv seedState := by
  constructor
  · decide
  · decide

/-- Every reachable Variant A generator state satisfies the invariant. -/
theorem Inv_states (n : ℕ) : Inv (states n) := by
  induction n with
  | zero => exact Inv_seedState
  | succ n ih => exact Inv_step (states n) ih

end VariantA

/-! ### Variant B: structural analysis of one generator step -/

namespace VariantB

/-- Edge equality of the source is reflexive. -/
theorem edgesEqual_self (e : Edge) : edgesEqual e e = true := by
  simp [edgesEqual, refEq_self]

/-- A tetrahedron contains each of its own six enumerated edges. -/
theorem tetrahedronHasEdge_of_mem (t : Tetrahedron) (e : Edge)
    (h : e ∈ edgesInTetrahedron t) : tetrahedronHasEdge t e = true := by
  unfold tetrahedronHasEdge
  rw [List.any_eq_true]
  exact ⟨e, h, edgesEqual_self e⟩

/-- When a tetrahedron contains an edge (by the source's loose edge equality),
the corner lookup succeeds for both endpoints of that edge. -/
theorem hasEdge_lookup (t : Tetrahedron) (e : Edge)
    (h : tetrahedronHasEdge t e = true) :
    (nameOfCorner t e.a).isSome = true ∧ (nameOfCorner t e.b).isSome = true := by
  unfold tetrahedronHasEdge at h
  rw [List.any_eq_true] at h
  obtain ⟨eIn, hmem, heq⟩ := h
  simp only [edgesInTetrahedron, List.mem_cons, List.not_mem_nil, or_false] at hmem
  unfold edgesEqual at heq
  rw [Bool.or_eq_true, Bool.and_eq_true, Bool.and_eq_true] at heq
  rcases hmem with rfl | rfl | rfl | rfl | rfl | rfl <;>
    rcases heq with ⟨h1, h2⟩ | ⟨h1, h2⟩ <;>
    exact ⟨nameOfCorner_isSome t e.a (by simp_all), nameOfCorner_isSome t e.b (by simp_all)⟩

theorem offCenterPoint_ref (newRef : ℕ) (e : Edge) :
    (offCenterPoint newRef e).ref = newRef := rfl

/-- Analysis of Variant B's `addPoint` on a nonempty partition: the longest
edge comes from a member tetrahedron, attains the maximal squared length over
all enumerated edges, and the returned split emits the single shared
off-center point of that edge. -/
theorem addPoint_spec (newRef : ℕ) (ts : List Tetrahedron) (h : ts ≠ []) :
    ∃ e t0, t0 ∈ ts ∧ e ∈ edgesInTetrahedron t0 ∧
      (∀ u ∈ ts, ∀ eu ∈ edgesInTetrahedron u,
        edgeLengthSquared eu ≤ edgeLengthSquared e) ∧
      addPoint newRef ts = some (splitEdge newRef e ts) ∧
      (splitEdge newRef e ts).2 = some (offCenterPoint newRef e) := by
  match ts, h with
  | t :: rest, _ =>
    have hmem0 : (⟨t.a, t.b⟩ : Edge) ∈ ((t :: rest).map edgesInTetrahedron).flatten := by
      rw [List.mem_flatten]
      exact ⟨edgesInTetrahedron t,
        List.mem_map_of_mem edgesInTetrahedron (List.mem_cons_self t rest),
        by simp [edgesInTetrahedron]⟩
    have hne : ((t :: rest).map edgesInTetrahedron).flatten ≠ [] :=
      List.ne_nil_of_mem hmem0
    obtain ⟨pre, e, post, hdec, hfind, hmax, _⟩ :=
      findMax_first edgeLengthSquared
        (fun a b => decide (edgeLengthSquared a > edgeLengthSquared b))
        (fun a b => by simp) _ hne
    have hemem : e ∈ ((t :: rest).map edgesInTetrahedron).flatten := by
      rw [hdec]; exact List.mem_append.mpr (Or.inr (List.mem_cons_self e post))
    obtain ⟨l, hl, hel⟩ := List.mem_flatten.mp hemem
    obtain ⟨t0, ht0, rfl⟩ := List.mem_map.mp hl
    have haff : t0 ∈ (t :: rest).filter (fun u => tetrahedronHasEdge u e) :=
      List.mem_filter.mpr ⟨ht0, tetrahedronHasEdge_of_mem t0 e hel⟩
    have haffne : (t :: rest).filter (fun u => tetrahedronHasEdge u e) ≠ [] :=
      List.ne_nil_of_mem haff
    refine ⟨e, t0, ht0, hel, ?_, ?_, ?_⟩
    · intro u hu eu heu
      exact hmax eu (List.mem_flatten.mpr ⟨edgesInTetrahedron u,
        List.mem_map_of_mem edgesInTetrahedron hu, heu⟩)
    · simp only [addPoint, hfind]
    · unfold splitEdge
      simp only []
      rw [if_neg]
      simp only [List.isEmpty_eq_true]
      exact haffne

/-- The generator invariant of Variant B: the partition is nonempty and every
corner was allocated before `nextRef`. -/
def Inv (s : State) : Prop :=
  s.tetrahedrons ≠ [] ∧ ∀ t ∈ s.tetrahedrons, cornersBelow t s.nextRef

/-- Full analysis of one Variant B generator step under the invariant: some
longest edge of a member tetrahedron is split; the new partition is the
result of `splitEdge` on it, and the emitted color is its shared off-center
point. -/
theorem step_specB (s : State) (h : Inv s) :
    ∃ e t0, t0 ∈ s.tetrahedrons ∧ e ∈ edgesInTetrahedron t0 ∧
      (∀ u ∈ s.tetrahedrons, ∀ eu ∈ edgesInTetrahedron u,
        edgeLengthSquared eu ≤ edgeLengthSquared e) ∧
      (step s).1.tetrahedrons = (splitEdge s.nextRef e s.tetrahedrons).1 ∧
      (step s).1.nextRef = s.nextRef + 1 ∧
      (step s).2 = some (offCenterPoint s.nextRef e) := by
  obtain ⟨e, t0, ht0, hel, hmax, hadd, hout⟩ := addPoint_spec s.nextRef s.tetrahedrons h.1
  refine ⟨e, t0, ht0, hel, hmax, ?_, ?_, ?_⟩ <;>
    simp only [step, hadd, hout]

/-- Each child produced by Variant B's split keeps its corners below `n` when
the affected tetrahedron's corners and the new point are below `n`. -/
theorem splitTetrahedron_cornersBelow (t : Tetrahedron) (e : Edge) (p : Color) (n : ℕ)
    (ht : cornersBelow t n) (hp : p.ref < n) :
    ∀ child ∈ splitTetrahedron t e p, cornersBelow child n := by
  intro child hchild
  simp only [splitTetrahedron, List.mem_cons, List.not_mem_nil, or_false] at hchild
  rcases hchild with rfl | rfl <;> exact setCorner_cornersBelow t _ p n ht hp

/-- One Variant B step preserves the generator invariant. -/
theorem Inv_stepB (s : State) (h : Inv s) : Inv ((step s).1) := by
  obtain ⟨e, t0, ht0, hel, _, hnew, href, _⟩ := step_specB s h
  constructor
  · rw [hnew]
    unfold splitEdge
    simp only []
    have haff : t0 ∈ s.tetrahedrons.filter (fun u => tetrahedronHasEdge u e) :=
      List.mem_filter.mpr ⟨ht0, tetrahedronHasEdge_of_mem t0 e hel⟩
    have hchild :
        setCorner t0 (nameOfCorner t0 e.a) (offCenterPoint s.nextRef e) ∈
          ((s.tetrahedrons.filter (fun u => tetrahedronHasEdge u e)).map
            (fun u => splitTetrahedron u e (offCenterPoint s.nextRef e))).flatten := by
      rw [List.mem_flatten]
      exact ⟨splitTetrahedron t0 e (offCenterPoint s.nextRef e),
        List.mem_map_of_mem _ haff, by simp [splitTetrahedron]⟩
    exact List.ne_nil_of_mem (List.mem_append.mpr (Or.inr hchild))
  · intro t ht
    rw [href]
    rw [hnew] at ht
    unfold splitEdge at ht
    simp only [] at ht
    have hold : ∀ u ∈ s.tetrahedrons, cornersBelow u (s.nextRef + 1) := by
      intro u hu
      obtain ⟨u1, u2, u3, u4⟩ := h.2 u hu
      exact ⟨Nat.lt_succ_of_lt u1, Nat.lt_succ_of_lt u2, Nat.lt_succ_of_lt u3,
        Nat.lt_succ_of_lt u4⟩
    rcases List.mem_append.mp ht with hun | hch
    · exact hold t (List.mem_of_mem_filter hun)
    · rw [List.mem_flatten] at hch
      obtain ⟨l, hl, htl⟩ := hch
      obtain ⟨u, hu, rfl⟩ := List.mem_map.mp hl
      exact splitTetrahedron_cornersBelow u e (offCenterPoint s.nextRef e) (s.nextRef + 1)
        (hold u (List.mem_of_mem_filter hu)) (Nat.lt_succ_self _) t htl

/-- The seed state of Variant B satisfies the generator invariant. -/
theorem Inv_seedStateB : Inv seedState := by
  constructor
  · decide
  · decide

/-- Every reachable Variant B generator state satisfies the invariant. -/
theorem Inv_statesB (n : ℕ) : Inv (states n) := by
  induction n with
  | zero => exact Inv_seedStateB
  | succ n ih => exact Inv_stepB (states n) ih

end VariantB

/-! ### Unit-cube invariant -/

/-- Every tetrahedron of the partition has all corners in the unit cube. -/
def allUnit (ts : List Tetrahedron) : Prop :=
  ∀ t ∈ ts, cornersInUnit t

instance (ts : List Tetrahedron) : Decidable (allUnit ts) := by
  unfold allUnit; infer_instance

namespace VariantA

theorem interpolate_r (newRef : ℕ) (a b : Color) (factor : ℚ) :
    (interpolate newRef a b factor).r = a.r * factor + b.r * (1 - factor) := rfl

theorem interpolate_g (newRef : ℕ) (a b : Color) (factor : ℚ) :
    (interpolate newRef a b factor).g = a.g * factor + b.g * (1 - factor) := rfl

theorem interpolate_b (newRef : ℕ) (a b : Color) (factor : ℚ) :
    (interpolate newRef a b factor).b = a.b * factor + b.b * (1 - factor) := rfl

/-- Variant A interpolation with a factor in `[0, 1]` of unit-cube colors
stays in the unit cube. -/
theorem interpolate_inUnit (newRef : ℕ) (a b : Color) (factor : ℚ)
    (ha : inUnit a) (hb : inUnit b) (h0 : 0 ≤ factor) (h1 : factor ≤ 1) :
    inUnit (interpolate newRef a b factor) := by
  obtain ⟨a1, a2, a3, a4, a5, a6⟩ := ha
  obtain ⟨b1, b2, b3, b4, b5, b6⟩ := hb
  unfold inUnit
  rw [interpolate_r, interpolate_g, interpolate_b]
  exact ⟨(convex_unit a1 a2 b1 b2 h0 h1).1, (convex_unit a1 a2 b1 b2 h0 h1).2,
    (convex_unit a3 a4 b3 b4 h0 h1).1, (convex_unit a3 a4 b3 b4 h0 h1).2,
    (convex_unit a5 a6 b5 b6 h0 h1).1, (convex_unit a5 a6 b5 b6 h0 h1).2⟩

/-- The center point of a unit-cube tetrahedron is in the unit cube. -/
theorem centerPoint_inUnit (newRef : ℕ) (t : Tetrahedron) (h : cornersInUnit t) :
    inUnit (centerPoint newRef t) := by
  obtain ⟨h1, h2, h3, h4⟩ := h
  have half0 : (0 : ℚ) ≤ 0.5 := by norm_num
  have half1 : (0.5 : ℚ) ≤ 1 := by norm_num
  exact interpolate_inUnit newRef _ _ 0.5
    (interpolate_inUnit newRef t.a t.b 0.5 h1 h2 half0 half1)
    (interpolate_inUnit newRef t.c t.d 0.5 h3 h4 half0 half1) half0 half1

/-- One Variant A step keeps every corner in the unit cube and emits a color
in the unit cube. -/
theorem step_allUnit (s : State) (hInv : Inv s) (hU : allUnit s.tetrahedrons) :
    allUnit ((step s).1.tetrahedrons) ∧ ∀ c, (step s).2 = some c → inUnit c := by
  obtain ⟨pre, parent, post, hdec, _, _, _, _, _, hnew, _, hout⟩ := step_spec s hInv
  have hparent : cornersInUnit parent :=
    hU parent (hdec ▸ List.mem_append.mpr (Or.inr (List.mem_cons_self parent post)))
  obtain ⟨hpa, hpb, hpc, hpd⟩ := hparent
  have hp : inUnit (centerPoint s.nextRef parent) :=
    centerPoint_inUnit s.nextRef parent ⟨hpa, hpb, hpc, hpd⟩
  constructor
  · intro t ht
    rw [hnew] at ht
    rcases List.mem_append.mp ht with hl | hpost
    · rcases List.mem_append.mp hl with hpre | hmid
      · exact hU t (hdec ▸ List.mem_append.mpr (Or.inl hpre))
      · simp only [List.mem_cons, List.not_mem_nil, or_false] at hmid
        rcases hmid with rfl | rfl | rfl | rfl
        · exact ⟨hp, hpb, hpc, hpd⟩
        · exact ⟨hpa, hp, hpc, hpd⟩
        · exact ⟨hpa, hpb, hp, hpd⟩
        · exact ⟨hpa, hpb, hpc, hp⟩
    · exact hU t (hdec ▸ List.mem_append.mpr (Or.inr (List.mem_cons.mpr (Or.inr hpost))))
  · intro c hc
    rw [hout] at hc
    rw [← Option.some.injEq c (centerPoint s.nextRef parent) |>.mp hc.symm] at hp
    exact hp

/-- The Variant A seed partition lies in the unit cube. -/
theorem allUnit_seed : allUnit seedTetrahedrons := by
  have hw : inUnit white := by norm_num [inUnit, white]
  have hg : inUnit gray := by norm_num [inUnit, gray]
  have hk : inUnit black := by norm_num [inUnit, black]
  have hr : inUnit red := by norm_num [inUnit, red]
  have hm : inUnit magenta := by norm_num [inUnit, magenta]
  have hb : inUnit blue := by norm_num [inUnit, blue]
  have hc : inUnit cyan := by norm_num [inUnit, cyan]
  have hgr : inUnit green := by norm_num [inUnit, green]
  have hy : inUnit yellow := by norm_num [inUnit, yellow]
  intro t ht
  simp only [seedTetrahedrons, List.mem_cons, List.not_mem_nil, or_false] at ht
  rcases ht with rfl | rfl | rfl | rfl | rfl | rfl | rfl | rfl | rfl | rfl | rfl | rfl <;>
    exact ⟨by assumption, by assumption, by assumption, by assumption⟩

/-- Every reachable Variant A partition lies in the unit cube. -/
theorem allUnit_states (n : ℕ) : allUnit (states n).tetrahedrons := by
  induction n with
  | zero => exact allUnit_seed
  | succ n ih => exact (step_allUnit (states n) (Inv_states n) ih).1

end VariantA

namespace VariantB

theorem interpolate_rB (newRef : ℕ) (edge : Edge) (factor : ℚ) :
    (interpolate newRef edge factor).r = edge.a.r * factor + edge.b.r * (1 - factor) := rfl

theorem interpolate_gB (newRef : ℕ) (edge : Edge) (factor : ℚ) :
    (interpolate newRef edge factor).g = edge.a.g * factor + edge.b.g * (1 - factor) := rfl

theorem interpolate_bB (newRef : ℕ) (edge : Edge) (factor : ℚ) :
    (interpolate newRef edge factor).b = edge.a.b * factor + edge.b.b * (1 - factor) := rfl

/-- Variant B interpolation with a factor in `[0, 1]` of a unit-cube edge
stays in the unit cube. -/
theorem interpolate_inUnitB (newRef : ℕ) (edge : Edge) (factor : ℚ)
    (ha : inUnit edge.a) (hb : inUnit edge.b) (h0 : 0 ≤ factor) (h1 : factor ≤ 1) :
    inUnit (interpolate newRef edge factor) := by
  obtain ⟨a1, a2, a3, a4, a5, a6⟩ := ha
  obtain ⟨b1, b2, b3, b4, b5, b6⟩ := hb
  unfold inUnit
  rw [interpolate_rB, interpolate_gB, interpolate_bB]
  exact ⟨(convex_unit a1 a2 b1 b2 h0 h1).1, (convex_unit a1 a2 b1 b2 h0 h1).2,
    (convex_unit a3 a4 b3 b4 h0 h1).1, (convex_unit a3 a4 b3 b4 h0 h1).2,
    (convex_unit a5 a6 b5 b6 h0 h1).1, (convex_unit a5 a6 b5 b6 h0 h1).2⟩

/-- The endpoints of any of a tetrahedron's six enumerated edges are corners
of that tetrahedron. -/
theorem edge_endpoints_inUnit (t : Tetrahedron) (e : Edge)
    (h : e ∈ edgesInTetrahedron t) (ht : cornersInUnit t) :
    inUnit e.a ∧ inUnit e.b := by
  obtain ⟨h1, h2, h3, h4⟩ := ht
  simp only [edgesInTetrahedron, List.mem_cons, List.not_mem_nil, or_false] at h
  rcases h with rfl | rfl | rfl | rfl | rfl | rfl <;>
    exact ⟨by assumption, by assumption⟩

/-- The off-center point of a unit-cube edge is in the unit cube. -/
theorem offCenterPoint_inUnit (newRef : ℕ) (e : Edge)
    (ha : inUnit e.a) (hb : inUnit e.b) : inUnit (offCenterPoint newRef e) :=
  interpolate_inUnitB newRef e 0.55 ha hb (by norm_num) (by norm_num)

/-- One Variant B step keeps every corner in the unit cube and emits a color
in the unit cube. -/
theorem step_allUnitB (s : State) (hInv : Inv s) (hU : allUnit s.tetrahedrons) :
    allUnit ((step s).1.tetrahedrons) ∧ ∀ c, (step s).2 = some c → inUnit c := by
  obtain ⟨e, t0, ht0, hel, _, hnew, _, hout⟩ := step_specB s hInv
  obtain ⟨hea, heb⟩ := edge_endpoints_inUnit t0 e hel (hU t0 ht0)
  have hp : inUnit (offCenterPoint s.nextRef e) :=
    offCenterPoint_inUnit s.nextRef e hea heb
  constructor
  · intro t ht
    rw [hnew] at ht
    unfold splitEdge at ht
    simp only [] at ht
    rcases List.mem_append.mp ht with hun | hch
    · exact hU t (List.mem_of_mem_filter hun)
    · rw [List.mem_flatten] at hch
      obtain ⟨l, hl, htl⟩ := hch
      obtain ⟨u, hu, rfl⟩ := List.mem_map.mp hl
      simp only [splitTetrahedron, List.mem_cons, List.not_mem_nil, or_false] at htl
      have huU : cornersInUnit u := hU u (List.mem_of_mem_filter hu)
      rcases htl with rfl | rfl <;> exact setCorner_cornersInUnit u _ _ huU hp
  · intro c hc
    rw [hout] at hc
    rw [← Option.some.injEq c (offCenterPoint s.nextRef e) |>.mp hc.symm] at hp
    exact hp

/-- The Variant B seed partition lies in the unit cube. -/
theorem allUnit_seedB : allUnit seedTetrahedrons := by
  have hw : inUnit white := by norm_num [inUnit, white]
  have hg : inUnit gray := by norm_num [inUnit, gray]
  have hk : inUnit black := by norm_num [inUnit, black]
  have hr : inUnit red := by norm_num [inUnit, red]
  have hm : inUnit magenta := by norm_num [inUnit, magenta]
  have hb : inUnit blue := by norm_num [inUnit, blue]
  have hc : inUnit cyan := by norm_num [inUnit, cyan]
  have hgr : inUnit green := by norm_num [inUnit, green]
  have hy : inUnit yellow := by norm_num [inUnit, yellow]
  intro t ht
  simp only [seedTetrahedrons, List.mem_cons, List.not_mem_nil, or_false] at ht
  rcases ht with rfl | rfl | rfl | rfl | rfl | rfl | rfl | rfl | rfl | rfl | rfl | rfl <;>
    exact ⟨by assumption, by assumption, by assumption, by assumption⟩

/-- Every reachable Variant B partition lies in the unit cube. -/
theorem allUnit_statesB (n : ℕ) : allUnit (states n).tetrahedrons := by
  induction n with
  | zero => exact allUnit_seedB
  | succ n ih => exact (step_allUnitB (states n) (Inv_statesB n) ih).1

end VariantB

/-! ### Claim theorems -/

/-- The property claimed for Variant A's selection: the scan over the
partition returns a tetrahedron of maximal volume, and every tetrahedron
strictly before it in partition order has strictly smaller volume (so an
element merely equal to the running maximum never replaces it). -/
def VariantA.selectsFirstMaxVolume (tetrahedrons : List Tetrahedron) : Prop :=
  ∃ pre y post,
    tetrahedrons = pre ++ y :: post ∧
    findMax tetrahedrons
      (fun a b => decide (VariantA.tetrahedronVolume a > VariantA.tetrahedronVolume b)) =
      some y ∧
    (∀ t ∈ tetrahedrons, VariantA.tetrahedronVolume t ≤ VariantA.tetrahedronVolume y) ∧
    (∀ t ∈ pre, VariantA.tetrahedronVolume t < VariantA.tetrahedronVolume y)

/-- C3: in Variant A, the selection scan (`findMax` with the strict volume
comparator, as called by `addPoint`) selects a tetrahedron of maximal volume,
and on ties the first in partition order: every earlier tetrahedron has
strictly smaller volume, because an element equal to the running maximum never
replaces it. -/
theorem claim_C3 (tetrahedrons : List Tetrahedron) (h : tetrahedrons ≠ []) :
    VariantA.selectsFirstMaxVolume tetrahedrons :=
  findMax_first VariantA.tetrahedronVolume
    (fun a b => decide (VariantA.tetrahedronVolume a > VariantA.tetrahedronVolume b))
    (fun a b => by simp) tetrahedrons h

/-- Witness for C3 at the concrete Variant A seed partition. -/
theorem claim_C3_witness : VariantA.selectsFirstMaxVolume VariantA.seedTetrahedrons :=
  claim_C3 VariantA.seedTetrahedrons (by simp [VariantA.seedTetrahedrons])

/-- C4: for every tetrahedron (and every model allocation identifier), the
split point of Variant A — corner a/b interpolated at 0.5, corner c/d
interpolated at 0.5, and the two midpoints interpolated at 0.5 — equals the
centroid (a + b + c + d) / 4 componentwise. -/
theorem claim_C4 (newRef : ℕ) (t : Tetrahedron) :
    (VariantA.centerPoint newRef t).r = (t.a.r + t.b.r + t.c.r + t.d.r) / 4 ∧
    (VariantA.centerPoint newRef t).g = (t.a.g + t.b.g + t.c.g + t.d.g) / 4 ∧
    (VariantA.centerPoint newRef t).b = (t.a.b + t.b.b + t.c.b + t.d.b) / 4 := by
  have h : VariantA.centerPoint newRef t =
      VariantA.interpolate newRef
        (VariantA.interpolate newRef t.a t.b 0.5)
        (VariantA.interpolate newRef t.c t.d 0.5) 0.5 := rfl
  refine ⟨?_, ?_, ?_⟩ <;>
    rw [h] <;>
    simp only [VariantA.interpolate_r, VariantA.interpolate_g, VariantA.interpolate_b] <;>
    norm_num <;> ring

/-- C7: both variants seed the partition with exactly 12 tetrahedra, and each
Variant A pull grows the partition by exactly 3, so after `n` pulls Variant A
holds exactly `12 + 3 * n` tetrahedra. -/
theorem claim_C7 :
    VariantA.seedTetrahedrons.length = 12 ∧
    VariantB.seedTetrahedrons.length = 12 ∧
    ∀ n : ℕ, (VariantA.states n).tetrahedrons.length = 12 + 3 * n := by
  refine ⟨rfl, rfl, ?_⟩
  intro n
  induction n with
  | zero => rfl
  | succ n ih =>
    obtain ⟨pre, parent, post, hdec, _, _, _, _, _, hnew, _, _⟩ :=
      VariantA.step_spec (VariantA.states n) (VariantA.Inv_states n)
    have h1 := congrArg List.length hdec
    have h2 := congrArg List.length hnew
    simp [List.length_append, List.length_cons] at h1 h2
    show (VariantA.step (VariantA.states n)).1.tetrahedrons.length = 12 + 3 * (n + 1)
    omega

/-- C8: every corner-role lookup reachable from the drivers succeeds.  In
Variant A the lookup is always applied to one of the tetrahedron's own four
corners and always returns a role; in Variant B it is applied to the chosen
edge's endpoints only on tetrahedra that contain that edge, and then both
lookups return a role. -/
theorem claim_C8 :
    (∀ t : Tetrahedron,
      (nameOfCorner t t.a).isSome = true ∧ (nameOfCorner t t.b).isSome = true ∧
      (nameOfCorner t t.c).isSome = true ∧ (nameOfCorner t t.d).isSome = true) ∧
    ∀ (t : Tetrahedron) (e : VariantB.Edge), VariantB.tetrahedronHasEdge t e = true →
      (nameOfCorner t e.a).isSome = true ∧ (nameOfCorner t e.b).isSome = true := by
  constructor
  · intro t
    exact ⟨nameOfCorner_isSome t t.a (Or.inl (refEq_self t.a)),
      nameOfCorner_isSome t t.b (Or.inr (Or.inl (refEq_self t.b))),
      nameOfCorner_isSome t t.c (Or.inr (Or.inr (Or.inl (refEq_self t.c)))),
      nameOfCorner_isSome t t.d (Or.inr (Or.inr (Or.inr (refEq_self t.d))))⟩
  · intro t e h
    exact VariantB.hasEdge_lookup t e h

/-- Witness for C8 at a concrete seed tetrahedron of Variant B and the
edge formed by its `a` and `b` corners. -/
theorem claim_C8_witness :
    (nameOfCorner ⟨VariantB.white, VariantB.gray, VariantB.red, VariantB.magenta⟩
      VariantB.white).isSome = true ∧
    (nameOfCorner ⟨VariantB.white, VariantB.gray, VariantB.red, VariantB.magenta⟩
      VariantB.gray).isSome = true :=
  claim_C8.2 ⟨VariantB.white, VariantB.gray, VariantB.red, VariantB.magenta⟩
    ⟨VariantB.white, VariantB.gray⟩ (by decide)

/-- Pull `n` of Variant A emits a freshly allocated color: it is some color,
its allocation identifier is the state's next fresh identifier, and it is not
reference-equal to any corner present in the partition before the pull. -/
def VariantA.emitsFreshPoint (n : ℕ) : Prop :=
  ∃ p, VariantA.series n = some p ∧
    p.ref = (VariantA.states n).nextRef ∧
    ∀ t ∈ (VariantA.states n).tetrahedrons,
      refEq p t.a = false ∧ refEq p t.b = false ∧ refEq p t.c = false ∧ refEq p t.d = false

/-- Pull `n + 6` of Variant B (the `n`-th loop pull, after the six initial
yields) emits a freshly allocated color not reference-equal to any corner
present in the partition before the pull. -/
def VariantB.emitsFreshPoint (n : ℕ) : Prop :=
  ∃ p, VariantB.series (n + 6) = some p ∧
    p.ref = (VariantB.states n).nextRef ∧
    ∀ t ∈ (VariantB.states n).tetrahedrons,
      refEq p t.a = false ∧ refEq p t.b = false ∧ refEq p t.c = false ∧ refEq p t.d = false

/-- C1 (amended): Variant A's every pull returns the newly created split
point, never a pre-existing color; Variant B's first six pulls return the
pre-existing seed hue corners red, magenta, blue, cyan, green, yellow, and
every later pull returns the newly created split point, never a pre-existing
color. -/
theorem claim_C1_amended :
    (∀ n : ℕ, VariantA.emitsFreshPoint n) ∧
    VariantB.series 0 = some VariantB.red ∧
    VariantB.series 1 = some VariantB.magenta ∧
    VariantB.series 2 = some VariantB.blue ∧
    VariantB.series 3 = some VariantB.cyan ∧
    VariantB.series 4 = some VariantB.green ∧
    VariantB.series 5 = some VariantB.yellow ∧
    (∀ n : ℕ, VariantB.emitsFreshPoint n) := by
  refine ⟨?_, rfl, rfl, rfl, rfl, rfl, rfl, ?_⟩
  · intro n
    obtain ⟨_, _, _, _, _, _, _, _, hbelow, _, _, hout⟩ :=
      VariantA.step_spec (VariantA.states n) (VariantA.Inv_states n)
    refine ⟨VariantA.centerPoint (VariantA.states n).nextRef _, hout, rfl, ?_⟩
    intro t ht
    obtain ⟨⟨h1, h2, h3, h4⟩, _⟩ := (VariantA.Inv_states n).2 t ht
    refine ⟨?_, ?_, ?_, ?_⟩ <;> rw [refEq_eq_false_iff] <;>
      simp only [VariantA.centerPoint_ref] <;> omega
  · intro n
    obtain ⟨e, _, _, _, _, _, _, hout⟩ :=
      VariantB.step_specB (VariantB.states n) (VariantB.Inv_statesB n)
    have hser : VariantB.series (n + 6) = (VariantB.step (VariantB.states n)).2 := by
      unfold VariantB.series
      rw [if_neg (by omega)]
      simp
    refine ⟨VariantB.offCenterPoint (VariantB.states n).nextRef e, by rw [hser, hout], rfl, ?_⟩
    intro t ht
    obtain ⟨h1, h2, h3, h4⟩ := (VariantB.Inv_statesB n).2 t ht
    refine ⟨?_, ?_, ?_, ?_⟩ <;> rw [refEq_eq_false_iff] <;>
      simp only [VariantB.offCenterPoint_ref] <;> omega

/-- Counterexample to C1 as stated: the very first pull of Variant B returns
the seed corner `red` — the `c` corner of the first seed tetrahedron — not a
newly created split point. -/
theorem claim_C1_counterexample :
    VariantB.series 0 = some VariantB.red ∧
    VariantB.seedTetrahedrons.get? 0 =
      some ⟨VariantB.white, VariantB.gray, VariantB.red, VariantB.magenta⟩ :=
  ⟨rfl, rfl⟩

/-- One Variant A pull from state `s` to state `sNext` emitting `out` splits a
maximal-volume parent in place: the old partition decomposes around the
parent (at its first occurrence), and the new partition has, at exactly that
position, the four children obtained by replacing corner a, b, c, d in turn
by the parent's center point, all other tetrahedra keeping their relative
positions; `out` is that center point. -/
def VariantA.stepSplitsParentInPlace (s sNext : VariantA.State) (out : Option Color) : Prop :=
  ∃ pre parent post,
    s.tetrahedrons = pre ++ parent :: post ∧
    parent ∉ pre ∧
    (∀ t ∈ s.tetrahedrons,
      VariantA.tetrahedronVolume t ≤ VariantA.tetrahedronVolume parent) ∧
    sNext.tetrahedrons =
      pre ++ [⟨VariantA.centerPoint s.nextRef parent, parent.b, parent.c, parent.d⟩,
              ⟨parent.a, VariantA.centerPoint s.nextRef parent, parent.c, parent.d⟩,
              ⟨parent.a, parent.b, VariantA.centerPoint s.nextRef parent, parent.d⟩,
              ⟨parent.a, parent.b, parent.c, VariantA.centerPoint s.nextRef parent⟩] ++
        post ∧
    out = some (VariantA.centerPoint s.nextRef parent)

/-- C5: every Variant A pull produces exactly 4 children — copies of the
parent with corner a, b, c, d respectively replaced by the split point — and
replaces the parent at its own position by them, preserving all other
positions. -/
theorem claim_C5 (n : ℕ) :
    VariantA.stepSplitsParentInPlace (VariantA.states n) (VariantA.states (n + 1))
      (VariantA.series n) := by
  obtain ⟨pre, parent, post, hdec, hnp, hmax, _, _, _, hnew, _, hout⟩ :=
    VariantA.step_spec (VariantA.states n) (VariantA.Inv_states n)
  exact ⟨pre, parent, post, hdec, hnp, hmax, hnew, hout⟩

/-- Componentwise numeric equality of two colors, ignoring object identity.
Stated from the spec's words, for comparison with the source's `edgesEqual`
(which uses JavaScript `==`, i.e. reference equality). -/
def colorValuesEqual (x y : Color) : Bool :=
  decide (x.r = y.r) && decide (x.g = y.g) && decide (x.b = y.b)

/-- The edge-equality relation claimed by the spec, for comparison with the
source's `edgesEqual`: unordered endpoint pairs compared by componentwise
numeric equality of the color components. -/
def VariantB.edgesEqualByValue (a b : VariantB.Edge) : Bool :=
  (colorValuesEqual a.a b.a && colorValuesEqual a.b b.b) ||
  (colorValuesEqual a.a b.b && colorValuesEqual a.b b.a)

/-- Counterexample to C2 as stated: two distinct Color objects with equal
components (`ref` 100 and 101, components (1, 0, 0)) form edges that are
equal under the spec's componentwise relation but NOT equal under the
source's `edgesEqual`, which compares by reference identity. -/
theorem claim_C2_counterexample :
    VariantB.edgesEqualByValue
      ⟨⟨100, 1, 0, 0⟩, ⟨100, 1, 0, 0⟩⟩ ⟨⟨101, 1, 0, 0⟩, ⟨101, 1, 0, 0⟩⟩ = true ∧
    VariantB.edgesEqual
      ⟨⟨100, 1, 0, 0⟩, ⟨100, 1, 0, 0⟩⟩ ⟨⟨101, 1, 0, 0⟩, ⟨101, 1, 0, 0⟩⟩ = false ∧
    (⟨100, 1, 0, 0⟩ : Color) ≠ ⟨101, 1, 0, 0⟩ := by
  refine ⟨?_, ?_, ?_⟩
  · simp [VariantB.edgesEqualByValue, colorValuesEqual]
  · simp [VariantB.edgesEqual, refEq]
  · intro h
    exact absurd (congrArg Color.ref h) (by simp)

/-- C2 (amended): in Variant B two edges are equal iff their endpoint sets
match as unordered pairs compared by reference identity of the endpoint
objects; two distinct Color objects with equal components do not form equal
edges. -/
theorem claim_C2_amended (e1 e2 : VariantB.Edge) :
    VariantB.edgesEqual e1 e2 = true ↔
      Sym2.mk (e1.a.ref, e1.b.ref) = Sym2.mk (e2.a.ref, e2.b.ref) := by
  rw [Sym2.eq_iff]
  simp only [VariantB.edgesEqual, refEq, Bool.or_eq_true, Bool.and_eq_true, beq_iff_eq]

/-- C6: each Variant B step computes one split point for the chosen edge —
the interpolation of its endpoints at factor 0.55 weighted toward the first
endpoint — shared by all children; every affected tetrahedron produces
exactly 2 children, each referencing that split point as one of its corners,
and the new partition is the unaffected tetrahedra followed by the affected
tetrahedra's children in affected order. -/
theorem claim_C6 (newRef : ℕ) (ts : List Tetrahedron) (e : VariantB.Edge)
    (t : Tetrahedron) (hmem : t ∈ ts)
    (hhas : VariantB.tetrahedronHasEdge t e = true) :
    (VariantB.offCenterPoint newRef e).r = e.a.r * 0.55 + e.b.r * 0.45 ∧
    (VariantB.offCenterPoint newRef e).g = e.a.g * 0.55 + e.b.g * 0.45 ∧
    (VariantB.offCenterPoint newRef e).b = e.a.b * 0.55 + e.b.b * 0.45 ∧
    (VariantB.splitEdge newRef e ts).2 = some (VariantB.offCenterPoint newRef e) ∧
    (VariantB.splitEdge newRef e ts).1 =
      ts.filter (fun u => !VariantB.tetrahedronHasEdge u e) ++
        ((ts.filter (fun u => VariantB.tetrahedronHasEdge u e)).map
          (fun u => VariantB.splitTetrahedron u e (VariantB.offCenterPoint newRef e))).flatten ∧
    (VariantB.splitTetrahedron t e (VariantB.offCenterPoint newRef e)).length = 2 ∧
    ∀ child ∈ VariantB.splitTetrahedron t e (VariantB.offCenterPoint newRef e),
      (refEq child.a (VariantB.offCenterPoint newRef e) ||
       refEq child.b (VariantB.offCenterPoint newRef e) ||
       refEq child.c (VariantB.offCenterPoint newRef e) ||
       refEq child.d (VariantB.offCenterPoint newRef e)) = true := by
  obtain ⟨hsa, hsb⟩ := VariantB.hasEdge_lookup t e hhas
  obtain ⟨namea, hnamea⟩ := Option.isSome_iff_exists.mp hsa
  obtain ⟨nameb, hnameb⟩ := Option.isSome_iff_exists.mp hsb
  have haff : t ∈ ts.filter (fun u => VariantB.tetrahedronHasEdge u e) :=
    List.mem_filter.mpr ⟨hmem, hhas⟩
  refine ⟨?_, ?_, ?_, ?_, ?_, ?_, ?_⟩
  · rw [show VariantB.offCenterPoint newRef e = VariantB.interpolate newRef e 0.55 from rfl,
      VariantB.interpolate_rB]
    norm_num
  · rw [show VariantB.offCenterPoint newRef e = VariantB.interpolate newRef e 0.55 from rfl,
      VariantB.interpolate_gB]
    norm_num
  · rw [show VariantB.offCenterPoint newRef e = VariantB.interpolate newRef e 0.55 from rfl,
      VariantB.interpolate_bB]
    norm_num
  · unfold VariantB.splitEdge
    simp only []
    rw [if_neg]
    simp only [List.isEmpty_eq_true]
    exact List.ne_nil_of_mem haff
  · rfl
  · rfl
  · intro child hchild
    simp only [VariantB.splitTetrahedron, List.mem_cons, List.not_mem_nil, or_false]
      at hchild
    rcases hchild with rfl | rfl
    · rw [hnamea]
      exact setCorner_references t namea (VariantB.offCenterPoint newRef e)
    · rw [hnameb]
      exact setCorner_references t nameb (VariantB.offCenterPoint newRef e)

/-- Witness for C6 at concrete inputs: the seed partition of Variant B, the
edge white–gray, and the first seed tetrahedron, which contains that edge. -/
theorem claim_C6_witness :
    (VariantB.offCenterPoint 9 ⟨VariantB.white, VariantB.gray⟩).r =
      VariantB.white.r * 0.55 + VariantB.gray.r * 0.45 ∧
    (VariantB.offCenterPoint 9 ⟨VariantB.white, VariantB.gray⟩).g =
      VariantB.white.g * 0.55 + VariantB.gray.g * 0.45 ∧
    (VariantB.offCenterPoint 9 ⟨VariantB.white, VariantB.gray⟩).b =
      VariantB.white.b * 0.55 + VariantB.gray.b * 0.45 ∧
    (VariantB.splitEdge 9 ⟨VariantB.white, VariantB.gray⟩ VariantB.seedTetrahedrons).2 =
      some (VariantB.offCenterPoint 9 ⟨VariantB.white, VariantB.gray⟩) ∧
    (VariantB.splitEdge 9 ⟨VariantB.white, VariantB.gray⟩ VariantB.seedTetrahedrons).1 =
      VariantB.seedTetrahedrons.filter
        (fun u => !VariantB.tetrahedronHasEdge u ⟨VariantB.white, VariantB.gray⟩) ++
        ((VariantB.seedTetrahedrons.filter
          (fun u => VariantB.tetrahedronHasEdge u ⟨VariantB.white, VariantB.gray⟩)).map
          (fun u => VariantB.splitTetrahedron u ⟨VariantB.white, VariantB.gray⟩
            (VariantB.offCenterPoint 9 ⟨VariantB.white, VariantB.gray⟩))).flatten ∧
    (VariantB.splitTetrahedron ⟨VariantB.white, VariantB.gray, VariantB.red, VariantB.magenta⟩
      ⟨VariantB.white, VariantB.gray⟩
      (VariantB.offCenterPoint 9 ⟨VariantB.white, VariantB.gray⟩)).length = 2 ∧
    ∀ child ∈ VariantB.splitTetrahedron
        ⟨VariantB.white, VariantB.gray, VariantB.red, VariantB.magenta⟩
        ⟨VariantB.white, VariantB.gray⟩
        (VariantB.offCenterPoint 9 ⟨VariantB.white, VariantB.gray⟩),
      (refEq child.a (VariantB.offCenterPoint 9 ⟨VariantB.white, VariantB.gray⟩) ||
       refEq child.b (VariantB.offCenterPoint 9 ⟨VariantB.white, VariantB.gray⟩) ||
       refEq child.c (VariantB.offCenterPoint 9 ⟨VariantB.white, VariantB.gray⟩) ||
       refEq child.d (VariantB.offCenterPoint 9 ⟨VariantB.white, VariantB.gray⟩)) = true :=
  claim_C6 9 VariantB.seedTetrahedrons ⟨VariantB.white, VariantB.gray⟩
    ⟨VariantB.white, VariantB.gray, VariantB.red, VariantB.magenta⟩
    (by simp [VariantB.seedTetrahedrons]) (by decide)

/-- Counterexample to C9 as stated: the first and seventh Variant A seed
tetrahedra both have volume 11/120, so even with the perturbed gray anchor
the seed tetrahedra do not have pairwise different sizes; and Variant B's
shared gray anchor is the exact half-point (0.5, 0.5, 0.5), not perturbed at
all. -/
theorem claim_C9_counterexample :
    VariantA.seedTetrahedrons.get? 0 =
      some ⟨VariantA.white, VariantA.gray, VariantA.red, VariantA.magenta⟩ ∧
    VariantA.seedTetrahedrons.get? 6 =
      some ⟨VariantA.black, VariantA.gray, VariantA.red, VariantA.magenta⟩ ∧
    VariantA.tetrahedronVolume
      ⟨VariantA.white, VariantA.gray, VariantA.red, VariantA.magenta⟩ = 11 / 120 ∧
    VariantA.tetrahedronVolume
      ⟨VariantA.black, VariantA.gray, VariantA.red, VariantA.magenta⟩ = 11 / 120 ∧
    VariantB.gray.r = 1 / 2 ∧ VariantB.gray.g = 1 / 2 ∧ VariantB.gray.b = 1 / 2 := by
  refine ⟨rfl, rfl, ?_, ?_, ?_, ?_, ?_⟩
  · norm_num [VariantA.tetrahedronVolume, VariantA.subColor, VariantA.colorDot,
      VariantA.colorCross, VariantA.white, VariantA.gray, VariantA.red, VariantA.magenta, abs]
  · norm_num [VariantA.tetrahedronVolume, VariantA.subColor, VariantA.colorDot,
      VariantA.colorCross, VariantA.black, VariantA.gray, VariantA.red, VariantA.magenta, abs]
  · norm_num [VariantB.gray]
  · norm_num [VariantB.gray]
  · norm_num [VariantB.gray]

/-- C9 (amended): only Variant A's seed perturbs an anchor — its shared gray
point is (0.45, 0.55, 0.5), off the exact half-point — while its white and
black anchors and all of Variant B's anchors (gray is exactly
(0.5, 0.5, 0.5)) are unperturbed; even so, the Variant A seed tetrahedra are
not pairwise different in volume (seed tetrahedra 0 and 6 are both 11/120),
and in Variant B all mirrored seed pairs coincide (both shown here at
volume 1/12); determinism comes from the first-occurrence tie-break of the
scan, not from distinct sizes. -/
theorem claim_C9_amended :
    VariantA.gray.r = 0.45 ∧ VariantA.gray.g = 0.55 ∧ VariantA.gray.b = 0.5 ∧
    ¬(VariantA.gray.r = 0.5 ∧ VariantA.gray.g = 0.5 ∧ VariantA.gray.b = 0.5) ∧
    VariantA.white.r = 1 ∧ VariantA.white.g = 1 ∧ VariantA.white.b = 1 ∧
    VariantA.black.r = 0 ∧ VariantA.black.g = 0 ∧ VariantA.black.b = 0 ∧
    VariantB.gray.r = 0.5 ∧ VariantB.gray.g = 0.5 ∧ VariantB.gray.b = 0.5 ∧
    VariantA.tetrahedronVolume
        ⟨VariantA.white, VariantA.gray, VariantA.red, VariantA.magenta⟩ =
      VariantA.tetrahedronVolume
        ⟨VariantA.black, VariantA.gray, VariantA.red, VariantA.magenta⟩ ∧
    VariantA.tetrahedronVolume
      ⟨VariantB.white, VariantB.gray, VariantB.red, VariantB.magenta⟩ = 1 / 12 ∧
    VariantA.tetrahedronVolume
      ⟨VariantB.black, VariantB.gray, VariantB.red, VariantB.magenta⟩ = 1 / 12 := by
  refine ⟨?_, ?_, ?_, ?_, rfl, rfl, rfl, rfl, rfl, rfl, ?_, ?_, ?_, ?_, ?_, ?_⟩
  · norm_num [VariantA.gray]
  · norm_num [VariantA.gray]
  · norm_num [VariantA.gray]
  · intro h
    have := h.1
    rw [show VariantA.gray.r = 0.45 from by norm_num [VariantA.gray]] at this
    norm_num at this
  · norm_num [VariantB.gray]
  · norm_num [VariantB.gray]
  · norm_num [VariantB.gray]
  · norm_num [VariantA.tetrahedronVolume, VariantA.subColor, VariantA.colorDot,
      VariantA.colorCross, VariantA.white, VariantA.black, VariantA.gray, VariantA.red,
      VariantA.magenta, abs]
  · norm_num [VariantA.tetrahedronVolume, VariantA.subColor, VariantA.colorDot,
      VariantA.colorCross, VariantB.white, VariantB.gray, VariantB.red, VariantB.magenta, abs]
  · norm_num [VariantA.tetrahedronVolume, VariantA.subColor, VariantA.colorDot,
      VariantA.colorCross, VariantB.black, VariantB.gray, VariantB.red, VariantB.magenta, abs]

/-- C10: every color emitted by either variant's driver has each component in
the closed interval `[0, 1]`: the seeds lie in the unit cube and every split
point is a convex combination (factors 0.5 or 0.55/0.45) of corners already
in it. -/
theorem claim_C10 (n : ℕ) (c : Color) :
    (VariantA.series n = some c → inUnit c) ∧
    (VariantB.series n = some c → inUnit c) := by
  constructor
  · intro h
    exact (VariantA.step_allUnit (VariantA.states n) (VariantA.Inv_states n)
      (VariantA.allUnit_states n)).2 c h
  · intro h
    unfold VariantB.series at h
    by_cases hn : n < 6
    · rw [if_pos hn] at h
      have hy : ∀ x ∈ VariantB.initialYields, inUnit x := by
        intro x hx
        simp only [VariantB.initialYields, List.mem_cons, List.not_mem_nil, or_false] at hx
        rcases hx with rfl | rfl | rfl | rfl | rfl | rfl <;>
          norm_num [inUnit, VariantB.red, VariantB.magenta, VariantB.blue, VariantB.cyan,
            VariantB.green, VariantB.yellow]
      exact hy c (List.get?_mem h)
    · rw [if_neg hn] at h
      exact (VariantB.step_allUnitB (VariantB.states (n - 6)) (VariantB.Inv_statesB (n - 6))
        (VariantB.allUnit_statesB (n - 6))).2 c h

/-- Witness for C10 at the concrete pull 0 of Variant B, which emits the seed
hue `red`, a unit-cube color. -/
theorem claim_C10_witness : VariantB.series 0 = some VariantB.red ∧ inUnit VariantB.red :=
  ⟨rfl, (claim_C10 0 VariantB.red).2 rfl⟩
